import Mathlib

/-!
# Verification of the LSS servo driver (lss_driver)

A shallow embedding of the lss_driver crate: the high-level driver methods of
`src/lib.rs` over a modelled framing layer.  The crate's `serial_driver` module
(declared in `src/lib.rs` as `mod serial_driver;` and providing `LssCommand`,
`LssResponse` and the framed driver) is not present in the sources, so those
parts are modelled from the specification; each such definition carries a
doc comment starting with `Modelled from the spec:`.  Byte streams are
modelled as `List Char` (the protocol is ASCII text), and the `f32` values of
the driver layer as exact rationals (`Rat`).
-/

namespace LssDriver

/-! ## Decimal rendering and parsing -/

/-- The ASCII character for a single decimal digit `d < 10`. -/
def digitChar : Nat → Char
  | 0 => '0'
  | 1 => '1'
  | 2 => '2'
  | 3 => '3'
  | 4 => '4'
  | 5 => '5'
  | 6 => '6'
  | 7 => '7'
  | 8 => '8'
  | _ => '9'

/-- The numeric value of an ASCII digit character. -/
def charToDigit (c : Char) : Nat := c.toNat - 48

/-- Worker for decimal rendering, structurally recursive on a fuel bound so
that concrete values reduce in the kernel; with `n ≤ fuel` the fuel never
runs out. -/
def natToDigitsAux : Nat → Nat → List Char
  | 0, n => [digitChar n]
  | fuel + 1, n =>
    if n < 10 then [digitChar n]
    else natToDigitsAux fuel (n / 10) ++ [digitChar (n % 10)]

/-- Decimal digits of a natural number, most significant first, no leading
zeros (`0` renders as `"0"`). -/
def natToDigits (n : Nat) : List Char := natToDigitsAux n n

/-- Decimal rendering of an integer, sign-prefixed with `-` exactly when
negative. -/
def intToDigits (v : Int) : List Char :=
  if v < 0 then '-' :: natToDigits v.natAbs else natToDigits v.toNat

/-- Numeric value of a digit string (most significant first). -/
def digitsToNat (ds : List Char) : Nat :=
  ds.foldl (fun acc c => acc * 10 + charToDigit c) 0

/-- Parse a non-empty all-digit string as a natural number; `none` otherwise. -/
def parseNat? (s : List Char) : Option Nat :=
  if s.isEmpty || !(s.all Char.isDigit) then none else some (digitsToNat s)

/-- Parse a signed decimal integer: an optional leading `-` followed by a
non-empty run of digits and nothing else. -/
def parseInt? (s : List Char) : Option Int :=
  match s with
  | [] => none
  | c :: cs =>
    if c = '-' then (parseNat? cs).map (fun n => -(n : Int))
    else (parseNat? (c :: cs)).map (fun n => (n : Int))

theorem charToDigit_digitChar {d : Nat} (h : d < 10) :
    charToDigit (digitChar d) = d := by
  interval_cases d <;> decide

theorem digitChar_isDigit (d : Nat) : (digitChar d).isDigit = true := by
  rcases d with _ | _ | _ | _ | _ | _ | _ | _ | _ | d <;> rfl

theorem natToDigitsAux_ne_nil (fuel n : Nat) : natToDigitsAux fuel n ≠ [] := by
  cases fuel with
  | zero => simp [natToDigitsAux]
  | succ m =>
    rw [natToDigitsAux]
    split <;> simp

theorem natToDigits_ne_nil (n : Nat) : natToDigits n ≠ [] :=
  natToDigitsAux_ne_nil n n

theorem natToDigitsAux_all_digits (fuel : Nat) :
    ∀ n, ∀ c ∈ natToDigitsAux fuel n, c.isDigit = true := by
  induction fuel with
  | zero =>
    intro n c hc
    simp [natToDigitsAux] at hc
    subst hc
    exact digitChar_isDigit n
  | succ m ih =>
    intro n c hc
    rw [natToDigitsAux] at hc
    split at hc
    · simp at hc
      subst hc
      exact digitChar_isDigit n
    · rcases List.mem_append.mp hc with h1 | h2
      · exact ih _ c h1
      · simp at h2
        subst h2
        exact digitChar_isDigit _

theorem natToDigits_all_digits (n : Nat) :
    ∀ c ∈ natToDigits n, c.isDigit = true :=
  natToDigitsAux_all_digits n n

theorem digitsToNat_singleton (c : Char) : digitsToNat [c] = charToDigit c := by
  simp [digitsToNat]

theorem digitsToNat_append_singleton (xs : List Char) (c : Char) :
    digitsToNat (xs ++ [c]) = 10 * digitsToNat xs + charToDigit c := by
  unfold digitsToNat
  rw [List.foldl_append]
  simp [Nat.mul_comm]

theorem digitsToNat_natToDigitsAux {fuel n : Nat} (h : n ≤ fuel) :
    digitsToNat (natToDigitsAux fuel n) = n := by
  induction fuel generalizing n with
  | zero =>
    have hz : n = 0 := by omega
    subst hz
    rfl
  | succ m ih =>
    rw [natToDigitsAux]
    split
    · rename_i h10
      rw [digitsToNat_singleton, charToDigit_digitChar h10]
    · rename_i h10
      push_neg at h10
      rw [digitsToNat_append_singleton, ih (by omega),
        charToDigit_digitChar (Nat.mod_lt _ (by omega))]
      omega

theorem digitsToNat_natToDigits (n : Nat) :
    digitsToNat (natToDigits n) = n :=
  digitsToNat_natToDigitsAux le_rfl

theorem parseNat?_natToDigits (n : Nat) :
    parseNat? (natToDigits n) = some n := by
  have h1 : (natToDigits n).isEmpty = false := by
    rw [Bool.eq_false_iff]
    intro hcontra
    exact natToDigits_ne_nil n (List.isEmpty_iff.mp hcontra)
  have h2 : (natToDigits n).all Char.isDigit = true :=
    List.all_eq_true.mpr (natToDigits_all_digits n)
  unfold parseNat?
  rw [h1, h2]
  simp [digitsToNat_natToDigits]

theorem isDigit_ne_dash {c : Char} (h : c.isDigit = true) : c ≠ '-' := by
  intro hc; subst hc; exact absurd h (by decide)

theorem isDigit_ne_cr {c : Char} (h : c.isDigit = true) : c ≠ '\r' := by
  intro hc; subst hc; exact absurd h (by decide)

theorem parseInt?_intToDigits (v : Int) :
    parseInt? (intToDigits v) = some v := by
  unfold intToDigits
  split
  · rename_i hneg
    simp only [parseInt?, if_pos rfl]
    rw [parseNat?_natToDigits]
    have habs : -((v.natAbs : Int)) = v := by omega
    show some (-((v.natAbs : Int))) = some v
    rw [habs]
  · rename_i hpos
    have hne := natToDigits_ne_nil v.toNat
    rcases hh : natToDigits v.toNat with _ | ⟨c, cs⟩
    · exact absurd hh hne
    · have hdig : c.isDigit = true := by
        apply natToDigits_all_digits v.toNat
        rw [hh]; simp
      simp only [parseInt?, if_neg (isDigit_ne_dash hdig)]
      rw [← hh, parseNat?_natToDigits]
      have htn : ((v.toNat : Int)) = v := by omega
      show some ((v.toNat : Int)) = some v
      rw [htn]

theorem natToDigitsAux_head_zero {fuel n : Nat} (hf : n ≤ fuel)
    (h : (natToDigitsAux fuel n).head? = some '0') : n = 0 := by
  induction fuel generalizing n with
  | zero => omega
  | succ m ih =>
    rw [natToDigitsAux] at h
    split at h
    · rename_i h10
      simp only [List.head?_cons, Option.some.injEq] at h
      interval_cases n <;> first | rfl | exact absurd h (by decide)
    · rename_i h10
      push_neg at h10
      exfalso
      rcases hh : natToDigitsAux m (n / 10) with _ | ⟨a, as⟩
      · exact natToDigitsAux_ne_nil m (n / 10) hh
      · rw [hh] at h
        simp only [List.cons_append, List.head?_cons, Option.some.injEq] at h
        have hdiv : n / 10 = 0 := by
          apply ih (by omega)
          rw [hh, h]
          rfl
        omega

theorem natToDigits_head_zero {n : Nat} :
    (natToDigits n).head? = some '0' → n = 0 :=
  natToDigitsAux_head_zero le_rfl

theorem intToDigits_head_dash (v : Int) :
    v < 0 ↔ (intToDigits v).head? = some '-' := by
  constructor
  · intro hv
    rw [intToDigits, if_pos hv]
    rfl
  · intro hc
    by_contra hv
    rw [intToDigits, if_neg hv] at hc
    rcases hh : natToDigits v.toNat with _ | ⟨a, as⟩
    · exact natToDigits_ne_nil _ hh
    · rw [hh] at hc
      simp only [List.head?_cons, Option.some.injEq] at hc
      have ha : a.isDigit = true := by
        apply natToDigits_all_digits v.toNat
        rw [hh]; simp
      exact isDigit_ne_dash ha hc

/-! ## Command model

The crate's `serial_driver` module (`mod serial_driver;` in `src/lib.rs`) is
not present in the sources; its `LssCommand` type is modelled from the
specification below.  The in-repo tests of `src/lib.rs` pin the exact wire
strings (`"#1L\r"`, `"#2LED1\r"`, `"#3D1800\r"`, `"#4H\r"`, `"#5QV\r"`),
which this model reproduces. -/

/-- Modelled from the spec: the Command value object of the missing
`serial_driver` module — identifier, action token, optional signed integer
parameter. -/
structure LssCommand where
  id : Nat
  action : List Char
  param : Option Int

/-- Modelled from the spec: `simple(id, action)` — no parameter. -/
def LssCommand.simple (id : Nat) (action : List Char) : LssCommand :=
  ⟨id, action, none⟩

/-- Modelled from the spec: `with_param(id, action, value)` — integer
parameter attached. -/
def LssCommand.with_param (id : Nat) (action : List Char) (value : Int) :
    LssCommand :=
  ⟨id, action, some value⟩

/-- Modelled from the spec: `serialize()` produces
`#{id}{action}[{value}]\r` — start marker `#`, decimal id with no leading
zeros, action token verbatim, decimal value with `-` for negative,
terminator `\r`. -/
def LssCommand.serialize (c : LssCommand) : List Char :=
  '#' :: (natToDigits c.id ++ c.action ++
    (match c.param with
     | none => []
     | some v => intToDigits v) ++ ['\r'])

/-! ## Response model -/

/-- Strip the expected token from the front of a character list: `some rest`
when the list is `tok ++ rest`, `none` otherwise. -/
def stripToken : List Char → List Char → Option (List Char)
  | s, [] => some s
  | [], _ :: _ => none
  | c :: cs, p :: ps => if c = p then stripToken cs ps else none

/-- Modelled from the spec: the Response value object of the missing
`serial_driver` module — wraps a decoded frame's text, already stripped of
the start marker and the terminator. -/
structure LssResponse where
  text : List Char

/-- Modelled from the spec: `new(text)` wraps a decoded frame's text. -/
def LssResponse.new (t : List Char) : LssResponse := ⟨t⟩

/-- Modelled from the spec: `separate(expected_token)` scans the text for the
leading digits (the echoed identifier), requires the next characters to
exactly match the expected token, and parses the remaining characters as a
signed decimal integer; any failure is a `ProtocolError`, modelled as
`none`. -/
def LssResponse.separate (r : LssResponse) (expected : List Char) :
    Option (Nat × Int) :=
  if (r.text.takeWhile Char.isDigit).isEmpty then none
  else
    match stripToken (r.text.dropWhile Char.isDigit) expected with
    | none => none
    | some rest =>
      match parseInt? rest with
      | none => none
      | some v => some (digitsToNat (r.text.takeWhile Char.isDigit), v)

theorem stripToken_eq_some {s tok rest : List Char} :
    stripToken s tok = some rest ↔ s = tok ++ rest := by
  induction tok generalizing s with
  | nil =>
    simp [stripToken]
  | cons p ps ih =>
    cases s with
    | nil => simp [stripToken]
    | cons c cs =>
      rw [stripToken]
      by_cases hc : c = p
      · subst hc
        rw [if_pos rfl, ih]
        simp
      · rw [if_neg hc]
        simp [hc]

theorem takeWhile_all_append {p : Char → Bool} {ds : List Char} {e : Char}
    (rest : List Char) (hds : ∀ c ∈ ds, p c = true) (he : p e = false) :
    (ds ++ e :: rest).takeWhile p = ds := by
  induction ds with
  | nil => simp [List.takeWhile, he]
  | cons d dtl ih =>
    have hd : p d = true := hds d (by simp)
    have ih2 := ih (fun c hc => hds c (by simp [hc]))
    simp [List.takeWhile_cons, hd, ih2]

theorem dropWhile_all_append {p : Char → Bool} {ds : List Char} {e : Char}
    (rest : List Char) (hds : ∀ c ∈ ds, p c = true) (he : p e = false) :
    (ds ++ e :: rest).dropWhile p = e :: rest := by
  induction ds with
  | nil => simp [List.dropWhile, he]
  | cons d dtl ih =>
    have hd : p d = true := hds d (by simp)
    have ih2 := ih (fun c hc => hds c (by simp [hc]))
    simp [List.dropWhile_cons, hd, ih2]

/-- The success cases of `separate`, characterised structurally: it returns
`(i, v)` exactly when the text is a non-empty digit run evaluating to `i`,
followed by the expected token verbatim, followed by a valid signed decimal
rendering of `v`.  The expected token is assumed to start with a non-digit
character, as every action token of the protocol does. -/
theorem separate_eq_some_iff {text : List Char} {e : Char} {es : List Char}
    (he : e.isDigit = false) {i : Nat} {v : Int} :
    (LssResponse.new text).separate (e :: es) = some (i, v) ↔
      ∃ ds rest, text = ds ++ (e :: es) ++ rest ∧ ds ≠ [] ∧
        (∀ c ∈ ds, c.isDigit = true) ∧ digitsToNat ds = i ∧
        parseInt? rest = some v := by
  constructor
  · intro hsep
    simp only [LssResponse.separate, LssResponse.new] at hsep
    split at hsep
    · exact absurd hsep (by simp)
    · rename_i hemp
      split at hsep
      · exact absurd hsep (by simp)
      · rename_i rest hstrip
        split at hsep
        · exact absurd hsep (by simp)
        · rename_i v' hparse
          rw [Option.some.injEq, Prod.mk.injEq] at hsep
          refine ⟨text.takeWhile Char.isDigit, rest, ?_, ?_, ?_, hsep.1, ?_⟩
          · rw [List.append_assoc, ← stripToken_eq_some.mp hstrip,
              List.takeWhile_append_dropWhile]
          · intro hnil
            rw [hnil] at hemp
            exact hemp rfl
          · intro c hc
            exact List.mem_takeWhile_imp hc
          · rw [hparse, hsep.2]
  · rintro ⟨ds, rest, htext, hne, hdig, hi, hv⟩
    have htw : text.takeWhile Char.isDigit = ds := by
      rw [htext, List.append_assoc, List.cons_append]
      exact takeWhile_all_append (es ++ rest) hdig he
    have hdw : text.dropWhile Char.isDigit = e :: (es ++ rest) := by
      rw [htext, List.append_assoc, List.cons_append]
      exact dropWhile_all_append (es ++ rest) hdig he
    have hstrip : stripToken (e :: (es ++ rest)) (e :: es) = some rest :=
      stripToken_eq_some.mpr (by simp)
    simp only [LssResponse.separate, LssResponse.new, htw, hdw, hstrip, hv, hi]
    rw [if_neg]
    intro hcontra
    exact hne (List.isEmpty_iff.mp hcontra)

/-! ## Frame codec

Modelled from the spec: the framed driver of the missing `serial_driver`
module owns an internal byte buffer and a transport; `receive()` loops
{scan the buffer for the terminator `\r`; if found, extract the frame and
retain the remainder; otherwise append the next transport read and retry}.
The pending transport reads are modelled as a list of chunks. -/

/-- Split a buffer at its first terminator `\r`: `some (frame, rest)` with
the terminator consumed, or `none` when the buffer holds no terminator. -/
def splitAtTerminator : List Char → Option (List Char × List Char)
  | [] => none
  | c :: cs =>
    if c = '\r' then some ([], cs)
    else
      match splitAtTerminator cs with
      | none => none
      | some (f, r) => some (c :: f, r)

/-- Strip a leading frame-start marker `*` from a frame's bytes. -/
def stripStar (s : List Char) : List Char :=
  match s with
  | [] => []
  | c :: cs => if c = '*' then cs else c :: cs

/-- Modelled from the spec: one `receive()` call.  Given the internal buffer
and the pending transport chunks, it returns the first frame's text (start
marker and terminator stripped), the retained buffer, and the chunks left
unread; `none` models a transport that never produces a terminator. -/
def receive : List Char → List (List Char) → Option (List Char × List Char × List (List Char))
  | buf, [] =>
    match splitAtTerminator buf with
    | some (f, rest) => some (stripStar f, rest, [])
    | none => none
  | buf, c :: cs =>
    match splitAtTerminator buf with
    | some (f, rest) => some (stripStar f, rest, c :: cs)
    | none => receive (buf ++ c) cs

theorem splitAtTerminator_decomp {s f r : List Char}
    (h : splitAtTerminator s = some (f, r)) :
    s = f ++ '\r' :: r ∧ '\r' ∉ f := by
  induction s generalizing f r with
  | nil => exact absurd h (by simp [splitAtTerminator])
  | cons c cs ih =>
    rw [splitAtTerminator] at h
    by_cases hc : c = '\r'
    · rw [if_pos hc] at h
      rw [Option.some.injEq, Prod.mk.injEq] at h
      subst hc
      rw [← h.1, ← h.2]
      exact ⟨rfl, by simp⟩
    · rw [if_neg hc] at h
      rcases hsplit : splitAtTerminator cs with _ | ⟨f', r'⟩
      · rw [hsplit] at h
        exact absurd h (by simp)
      · rw [hsplit] at h
        rw [Option.some.injEq, Prod.mk.injEq] at h
        rcases ih hsplit with ⟨hcs, hmem⟩
        rw [← h.1, ← h.2]
        constructor
        · rw [List.cons_append, hcs]
        · simp only [List.mem_cons, not_or]
          exact ⟨fun hh => hc hh.symm, hmem⟩

theorem splitAtTerminator_of_decomp {f r : List Char} (hf : '\r' ∉ f) :
    splitAtTerminator (f ++ '\r' :: r) = some (f, r) := by
  induction f with
  | nil => simp [splitAtTerminator]
  | cons c cs ih =>
    have hc : c ≠ '\r' := fun hh => hf (by simp [hh])
    have hcs : '\r' ∉ cs := fun hh => hf (by simp [hh])
    rw [List.cons_append, splitAtTerminator, if_neg hc, ih hcs]

theorem splitAtTerminator_length {s f r : List Char}
    (h : splitAtTerminator s = some (f, r)) : r.length < s.length := by
  have hd := (splitAtTerminator_decomp h).1
  rw [hd]
  simp
  omega

theorem receive_term_in_buf {buf f rest : List Char} (chunks : List (List Char))
    (h : splitAtTerminator buf = some (f, rest)) :
    receive buf chunks = some (stripStar f, rest, chunks) := by
  cases chunks with
  | nil => rw [receive, h]
  | cons c cs => rw [receive, h]

theorem receive_no_term_nil {buf : List Char}
    (h : splitAtTerminator buf = none) :
    receive buf [] = none := by
  rw [receive, h]

theorem receive_no_term_step {buf : List Char} {c : List Char}
    {cs : List (List Char)} (h : splitAtTerminator buf = none) :
    receive buf (c :: cs) = receive (buf ++ c) cs := by
  rw [receive, h]

/-- Structure of a successful `receive`: some prefix `used` of the pending
chunks was read; the accumulated bytes split as a terminator-free prefix
`pre`, the terminator, and the retained buffer `rest`; and the returned
frame is `pre` with its start marker stripped. -/
theorem receive_some_decomp {buf : List Char} {chunks : List (List Char)}
    {f rest : List Char} {chunks' : List (List Char)}
    (h : receive buf chunks = some (f, rest, chunks')) :
    ∃ pre used, chunks = used ++ chunks' ∧
      buf ++ used.flatten = pre ++ '\r' :: rest ∧ '\r' ∉ pre ∧
      f = stripStar pre := by
  induction chunks generalizing buf with
  | nil =>
    rcases hsplit : splitAtTerminator buf with _ | ⟨f0, r0⟩
    · rw [receive_no_term_nil hsplit] at h
      exact absurd h (by simp)
    · rw [receive_term_in_buf [] hsplit] at h
      rw [Option.some.injEq, Prod.mk.injEq, Prod.mk.injEq] at h
      rcases splitAtTerminator_decomp hsplit with ⟨hb, hmem⟩
      exact ⟨f0, [], by simp [h.2.2.symm], by simpa [h.2.1.symm] using hb,
        hmem, h.1.symm⟩
  | cons c cs ih =>
    rcases hsplit : splitAtTerminator buf with _ | ⟨f0, r0⟩
    · rw [receive_no_term_step hsplit] at h
      rcases ih h with ⟨pre, used, hchunks, hacc, hmem, hf⟩
      refine ⟨pre, c :: used, by simp [hchunks], ?_, hmem, hf⟩
      simpa [List.append_assoc] using hacc
    · rw [receive_term_in_buf (c :: cs) hsplit] at h
      rw [Option.some.injEq, Prod.mk.injEq, Prod.mk.injEq] at h
      rcases splitAtTerminator_decomp hsplit with ⟨hb, hmem⟩
      exact ⟨f0, [], by simp [h.2.2.symm], by simpa [h.2.1.symm] using hb,
        hmem, h.1.symm⟩

/-- Worker for `frames`, structurally recursive on a fuel bound; with
`s.length ≤ fuel` the fuel never runs out. -/
def framesAux : Nat → List Char → List (List Char)
  | 0, _ => []
  | fuel + 1, s =>
    match splitAtTerminator s with
    | none => []
    | some (f, rest) => stripStar f :: framesAux fuel rest

/-- The frames of a complete byte stream, in terminator order: each maximal
terminator-free prefix, start marker stripped; trailing bytes with no
terminator are not a frame. -/
def frames (s : List Char) : List (List Char) := framesAux s.length s

theorem framesAux_of_none {s : List Char} (h : splitAtTerminator s = none) :
    ∀ fuel, framesAux fuel s = []
  | 0 => rfl
  | fuel + 1 => by rw [framesAux, h]

theorem framesAux_of_some {s f rest : List Char}
    (h : splitAtTerminator s = some (f, rest)) (fuel : Nat) :
    framesAux (fuel + 1) s = stripStar f :: framesAux fuel rest := by
  rw [framesAux, h]

theorem framesAux_congr {fuel1 fuel2 : Nat} {s : List Char}
    (h1 : s.length ≤ fuel1) (h2 : s.length ≤ fuel2) :
    framesAux fuel1 s = framesAux fuel2 s := by
  induction fuel1 generalizing fuel2 s with
  | zero =>
    rcases hs : splitAtTerminator s with _ | ⟨f, rest⟩
    · rw [framesAux_of_none hs, framesAux_of_none hs]
    · have := splitAtTerminator_length hs
      omega
  | succ m1 ih =>
    rcases hs : splitAtTerminator s with _ | ⟨f, rest⟩
    · rw [framesAux_of_none hs, framesAux_of_none hs]
    · cases fuel2 with
      | zero =>
        have := splitAtTerminator_length hs
        omega
      | succ m2 =>
        have hlen := splitAtTerminator_length hs
        rw [framesAux_of_some hs, framesAux_of_some hs,
          ih (by omega) (show rest.length ≤ m2 by omega)]

theorem frames_eq_nil {s : List Char} (h : splitAtTerminator s = none) :
    frames s = [] := by
  rw [frames]
  exact framesAux_of_none h _

theorem frames_eq_cons {s f rest : List Char}
    (h : splitAtTerminator s = some (f, rest)) :
    frames s = stripStar f :: frames rest := by
  have hlen := splitAtTerminator_length h
  rw [frames, frames]
  cases hl : s.length with
  | zero => omega
  | succ m =>
    rw [framesAux_of_some h,
      framesAux_congr (show rest.length ≤ m by omega) le_rfl]

theorem receive_size {buf : List Char} {chunks : List (List Char)}
    {f rest : List Char} {chunks' : List (List Char)}
    (h : receive buf chunks = some (f, rest, chunks')) :
    rest.length + chunks'.flatten.length + chunks'.length <
      buf.length + chunks.flatten.length + chunks.length := by
  rcases receive_some_decomp h with ⟨pre, used, hchunks, hacc, _, _⟩
  have h1 : buf.length + used.flatten.length =
      pre.length + (rest.length + 1) := by
    have hlen := congrArg List.length hacc
    simpa using hlen
  have h2 : chunks.flatten.length =
      used.flatten.length + chunks'.flatten.length := by
    rw [hchunks]; simp
  have h3 : chunks.length = used.length + chunks'.length := by
    rw [hchunks]; simp
  omega

/-- Worker for `receiveAll`, structurally recursive on a fuel bound; with
the total size of buffer and chunks below the fuel it never runs out. -/
def receiveAllAux : Nat → List Char → List (List Char) → List (List Char)
  | 0, _, _ => []
  | fuel + 1, buf, chunks =>
    match receive buf chunks with
    | none => []
    | some (f, rest, chunks') => f :: receiveAllAux fuel rest chunks'

/-- Iterate `receive()` until the transport is exhausted without a
terminator, collecting the returned frames in order. -/
def receiveAll (buf : List Char) (chunks : List (List Char)) :
    List (List Char) :=
  receiveAllAux (buf.length + chunks.flatten.length + chunks.length) buf chunks

theorem receiveAllAux_of_none {buf : List Char} {chunks : List (List Char)}
    (h : receive buf chunks = none) :
    ∀ fuel, receiveAllAux fuel buf chunks = []
  | 0 => rfl
  | fuel + 1 => by rw [receiveAllAux, h]

theorem receiveAllAux_of_some {buf : List Char} {chunks : List (List Char)}
    {f rest : List Char} {chunks' : List (List Char)}
    (h : receive buf chunks = some (f, rest, chunks')) (fuel : Nat) :
    receiveAllAux (fuel + 1) buf chunks =
      f :: receiveAllAux fuel rest chunks' := by
  rw [receiveAllAux, h]

theorem receiveAllAux_congr {fuel1 fuel2 : Nat} {buf : List Char}
    {chunks : List (List Char)}
    (h1 : buf.length + chunks.flatten.length + chunks.length ≤ fuel1)
    (h2 : buf.length + chunks.flatten.length + chunks.length ≤ fuel2) :
    receiveAllAux fuel1 buf chunks = receiveAllAux fuel2 buf chunks := by
  induction fuel1 generalizing fuel2 buf chunks with
  | zero =>
    rcases hrec : receive buf chunks with _ | ⟨⟨f, rest, chunks'⟩⟩
    · rw [receiveAllAux_of_none hrec, receiveAllAux_of_none hrec]
    · exact absurd (receive_size hrec) (by omega)
  | succ m1 ih =>
    rcases hrec : receive buf chunks with _ | ⟨⟨f, rest, chunks'⟩⟩
    · rw [receiveAllAux_of_none hrec, receiveAllAux_of_none hrec]
    · cases fuel2 with
      | zero => exact absurd (receive_size hrec) (by omega)
      | succ m2 =>
        have hsz := receive_size hrec
        rw [receiveAllAux_of_some hrec, receiveAllAux_of_some hrec,
          ih (by omega) (show rest.length + chunks'.flatten.length +
            chunks'.length ≤ m2 by omega)]

theorem receiveAll_eq_nil {buf : List Char} {chunks : List (List Char)}
    (h : receive buf chunks = none) : receiveAll buf chunks = [] := by
  rw [receiveAll]
  exact receiveAllAux_of_none h _

theorem receiveAll_eq_cons {buf : List Char} {chunks : List (List Char)}
    {f rest : List Char} {chunks' : List (List Char)}
    (h : receive buf chunks = some (f, rest, chunks')) :
    receiveAll buf chunks = f :: receiveAll rest chunks' := by
  have hsz := receive_size h
  rw [receiveAll, receiveAll]
  cases hl : buf.length + chunks.flatten.length + chunks.length with
  | zero => omega
  | succ m =>
    rw [receiveAllAux_of_some h,
      receiveAllAux_congr (show rest.length + chunks'.flatten.length +
        chunks'.length ≤ m by omega) le_rfl]

theorem splitAtTerminator_append {buf f r : List Char} (X : List Char)
    (h : splitAtTerminator buf = some (f, r)) :
    splitAtTerminator (buf ++ X) = some (f, r ++ X) := by
  rcases splitAtTerminator_decomp h with ⟨hb, hmem⟩
  rw [hb, List.append_assoc, List.cons_append]
  exact splitAtTerminator_of_decomp hmem

theorem receive_none_no_term {buf : List Char} {chunks : List (List Char)}
    (h : receive buf chunks = none) :
    splitAtTerminator (buf ++ chunks.flatten) = none := by
  induction chunks generalizing buf with
  | nil =>
    rcases hsplit : splitAtTerminator buf with _ | ⟨f, r⟩
    · simpa using hsplit
    · rw [receive_term_in_buf [] hsplit] at h
      exact absurd h (by simp)
  | cons c cs ih =>
    rcases hsplit : splitAtTerminator buf with _ | ⟨f, r⟩
    · rw [receive_no_term_step hsplit] at h
      have := ih h
      simpa [List.append_assoc] using this
    · rw [receive_term_in_buf (c :: cs) hsplit] at h
      exact absurd h (by simp)

/-- Iterated reception recovers exactly the frames of the concatenated byte
stream, in order: the codec neither drops, reorders, nor invents frames,
regardless of how the stream is chunked. -/
theorem receiveAll_eq_frames (buf : List Char) (chunks : List (List Char)) :
    receiveAll buf chunks = frames (buf ++ chunks.flatten) := by
  generalize hm : buf.length + chunks.flatten.length + chunks.length = m
  induction m using Nat.strong_induction_on generalizing buf chunks with
  | _ m ih =>
    rcases hrec : receive buf chunks with _ | ⟨⟨f, rest, chunks'⟩⟩
    · rw [receiveAll_eq_nil hrec,
        frames_eq_nil (receive_none_no_term hrec)]
    · rw [receiveAll_eq_cons hrec]
      rcases receive_some_decomp hrec with ⟨pre, used, hchunks, hacc, hmem, hf⟩
      have hstream : buf ++ chunks.flatten =
          pre ++ '\r' :: (rest ++ chunks'.flatten) := by
        rw [hchunks, List.flatten_append, ← List.append_assoc, hacc]
        simp
      have hsplit : splitAtTerminator (buf ++ chunks.flatten) =
          some (pre, rest ++ chunks'.flatten) := by
        rw [hstream]
        exact splitAtTerminator_of_decomp hmem
      rw [frames_eq_cons hsplit, hf]
      congr 1
      subst hm
      exact ih _ (receive_size hrec) rest chunks' rfl

theorem cr_not_mem_natToDigits (n : Nat) : '\r' ∉ natToDigits n :=
  fun h => absurd (natToDigits_all_digits n _ h) (by decide)

theorem cr_not_mem_intToDigits (v : Int) : '\r' ∉ intToDigits v := by
  rw [intToDigits]
  split
  · simp only [List.mem_cons, not_or]
    exact ⟨by decide, cr_not_mem_natToDigits _⟩
  · exact cr_not_mem_natToDigits _

/-- `separate` on a well-formed response body `{id}{tok}{v}` recovers the
echoed identifier and the value. -/
theorem separate_response {id : Nat} {e : Char} {es : List Char} {v : Int}
    (he : e.isDigit = false) :
    (LssResponse.new (natToDigits id ++ (e :: es) ++ intToDigits v)).separate
      (e :: es) = some (id, v) :=
  (separate_eq_some_iff he).mpr
    ⟨natToDigits id, intToDigits v, rfl, natToDigits_ne_nil id,
     natToDigits_all_digits id, digitsToNat_natToDigits id,
     parseInt?_intToDigits v⟩

/-- `receive` on an empty buffer and a single chunk holding one well-formed
response frame `*{id}{tok}{v}\r` yields the frame body with nothing
retained. -/
theorem receive_single_response (id : Nat) (tok : List Char) (v : Int)
    (htok : '\r' ∉ tok) :
    receive [] ['*' :: (natToDigits id ++ tok ++ intToDigits v ++ ['\r'])] =
      some (natToDigits id ++ tok ++ intToDigits v, [], []) := by
  have hpre : '\r' ∉ '*' :: (natToDigits id ++ tok ++ intToDigits v) := by
    simp only [List.mem_cons, List.mem_append, not_or]
    exact ⟨by decide, ⟨cr_not_mem_natToDigits id, htok⟩,
      cr_not_mem_intToDigits v⟩
  have hshape : '*' :: (natToDigits id ++ tok ++ intToDigits v ++ ['\r']) =
      ('*' :: (natToDigits id ++ tok ++ intToDigits v)) ++ '\r' :: [] := by
    simp
  have hnil : splitAtTerminator ([] : List Char) = none := rfl
  rw [receive_no_term_step hnil, List.nil_append, hshape,
    receive_term_in_buf [] (splitAtTerminator_of_decomp hpre)]
  rfl

/-! ## High-level driver (src/lib.rs) -/

/-- The `LedColor` enum of `src/lib.rs`. -/
inductive LedColor
  | Off
  | Red
  | Green
  | Blue
  | Yellow
  | Cyan
  | Magenta
  | White

/-- The discriminant of `LedColor` (`Off = 0` … `White = 7`), as read by
`color as i32` in `set_color`. -/
def LedColor.code : LedColor → Int
  | .Off => 0
  | .Red => 1
  | .Green => 2
  | .Blue => 3
  | .Yellow => 4
  | .Cyan => 5
  | .Magenta => 6
  | .White => 7

/-- The observable state of an `LSSDriver` over a scripted transport: the
serialized commands the transport has received so far, the codec's retained
buffer, and the transport's pending incoming chunks. -/
structure DriverState where
  sent : List (List Char)
  buffer : List Char
  chunks : List (List Char)

/-- Modelled from the spec: the framed driver's `send(Command)` — serialize
and write the bytes to the transport in one call. -/
def DriverState.send (s : DriverState) (c : LssCommand) : DriverState :=
  { s with sent := s.sent ++ [c.serialize] }

/-- Modelled from the spec: the framed driver's `receive()` over the scripted
transport. -/
def DriverState.receiveResp (s : DriverState) :
    Option (LssResponse × DriverState) :=
  match receive s.buffer s.chunks with
  | none => none
  | some (f, rest, chunks') =>
    some (LssResponse.new f, { s with buffer := rest, chunks := chunks' })

/-- `LSSDriver::set_color` (src/lib.rs): send `LED` with the color code. -/
def set_color (id : Nat) (color : LedColor) (s : DriverState) : DriverState :=
  s.send (LssCommand.with_param id ("LED".toList) color.code)

/-- Rust's `f32::round`: round half away from zero — here on the exact
rationals that model the `f32` values. -/
def rustRound (q : Rat) : Int :=
  if 0 ≤ q then ⌊q + (1 : Rat) / 2⌋ else -⌊-q + (1 : Rat) / 2⌋

/-- `LSSDriver::move_to_position` (src/lib.rs):
`angle = (position * 10.0).round() as i32`, then send `D{angle}`. -/
def move_to_position (id : Nat) (position : Rat) (s : DriverState) :
    DriverState :=
  s.send (LssCommand.with_param id ("D".toList) (rustRound (position * 10)))

/-- `LSSDriver::set_motion_profile` (src/lib.rs): send `EM` with
`motion_profile as i32`. -/
def set_motion_profile (id : Nat) (motion_profile : Bool) (s : DriverState) :
    DriverState :=
  s.send (LssCommand.with_param id ("EM".toList)
    (if motion_profile then 1 else 0))

/-- `LSSDriver::limp` (src/lib.rs): send the parameterless `L` command. -/
def limp (id : Nat) (s : DriverState) : DriverState :=
  s.send (LssCommand.simple id ("L".toList))

/-- `LSSDriver::halt_hold` (src/lib.rs): send the parameterless `H`
command. -/
def halt_hold (id : Nat) (s : DriverState) : DriverState :=
  s.send (LssCommand.simple id ("H".toList))

/-- `LSSDriver::read_voltage` (src/lib.rs): query `QV`, extract the value,
divide by 1000 (millivolts to volts); `f32` modelled as `Rat`. -/
def read_voltage (id : Nat) (s : DriverState) : Option (Rat × DriverState) :=
  match (s.send (LssCommand.simple id ("QV".toList))).receiveResp with
  | none => none
  | some (resp, s2) =>
    match resp.separate ("QV".toList) with
    | none => none
    | some (_, v) => some ((v : Rat) / 1000, s2)

/-- `LSSDriver::read_position` (src/lib.rs): query `QDT`, divide by 10
(tenths of degrees to degrees); `f32` modelled as `Rat`. -/
def read_position (id : Nat) (s : DriverState) : Option (Rat × DriverState) :=
  match (s.send (LssCommand.simple id ("QDT".toList))).receiveResp with
  | none => none
  | some (resp, s2) =>
    match resp.separate ("QDT".toList) with
    | none => none
    | some (_, v) => some ((v : Rat) / 10, s2)

/-- `LSSDriver::read_temperature` (src/lib.rs): query `QT`, divide by 10
(tenths of degrees Celsius); `f32` modelled as `Rat`. -/
def read_temperature (id : Nat) (s : DriverState) :
    Option (Rat × DriverState) :=
  match (s.send (LssCommand.simple id ("QT".toList))).receiveResp with
  | none => none
  | some (resp, s2) =>
    match resp.separate ("QT".toList) with
    | none => none
    | some (_, v) => some ((v : Rat) / 10, s2)

/-- `LSSDriver::read_current` (src/lib.rs): query `QC`, divide by 1000
(milliamps to amps); `f32` modelled as `Rat`. -/
def read_current (id : Nat) (s : DriverState) : Option (Rat × DriverState) :=
  match (s.send (LssCommand.simple id ("QC".toList))).receiveResp with
  | none => none
  | some (resp, s2) =>
    match resp.separate ("QC".toList) with
    | none => none
    | some (_, v) => some ((v : Rat) / 1000, s2)

/-- `LSSDriver::read_filter_position_count` (src/lib.rs): query `QFPC` and
return `value as u8` — the i32 value truncated to its low 8 bits. -/
def read_filter_position_count (id : Nat) (s : DriverState) :
    Option (Nat × DriverState) :=
  match (s.send (LssCommand.simple id ("QFPC".toList))).receiveResp with
  | none => none
  | some (resp, s2) =>
    match resp.separate ("QFPC".toList) with
    | none => none
    | some (_, v) => some ((v % 256).toNat, s2)

end LssDriver

namespace LssDriver

/-- `receive()` over a scripted transport holding exactly one well-formed
response frame yields that frame's body and leaves buffer and chunks
empty. -/
theorem receiveResp_single (sent : List (List Char)) (id : Nat)
    (tok : List Char) (v : Int) (htok : '\r' ∉ tok) :
    (DriverState.mk sent []
        ['*' :: (natToDigits id ++ tok ++ intToDigits v ++ ['\r'])]).receiveResp =
      some (LssResponse.new (natToDigits id ++ tok ++ intToDigits v),
        DriverState.mk sent [] []) := by
  simp only [DriverState.receiveResp]
  rw [receive_single_response id tok v htok]

theorem read_voltage_value (id : Nat) (v : Int) :
    read_voltage id (DriverState.mk [] []
        ['*' :: (natToDigits id ++ "QV".toList ++ intToDigits v ++ ['\r'])]) =
      some ((v : Rat) / 1000,
        DriverState.mk [(LssCommand.simple id ("QV".toList)).serialize] [] []) := by
  have hsep : (LssResponse.new
      (natToDigits id ++ "QV".toList ++ intToDigits v)).separate ("QV".toList) =
        some (id, v) := separate_response (by decide)
  have hrecv := receiveResp_single [(LssCommand.simple id ("QV".toList)).serialize]
    id ("QV".toList) v (by decide)
  simp only [read_voltage, DriverState.send, List.nil_append, hrecv, hsep]

theorem read_position_value (id : Nat) (v : Int) :
    read_position id (DriverState.mk [] []
        ['*' :: (natToDigits id ++ "QDT".toList ++ intToDigits v ++ ['\r'])]) =
      some ((v : Rat) / 10,
        DriverState.mk [(LssCommand.simple id ("QDT".toList)).serialize] [] []) := by
  have hsep : (LssResponse.new
      (natToDigits id ++ "QDT".toList ++ intToDigits v)).separate ("QDT".toList) =
        some (id, v) := separate_response (by decide)
  have hrecv := receiveResp_single [(LssCommand.simple id ("QDT".toList)).serialize]
    id ("QDT".toList) v (by decide)
  simp only [read_position, DriverState.send, List.nil_append, hrecv, hsep]

theorem read_temperature_value (id : Nat) (v : Int) :
    read_temperature id (DriverState.mk [] []
        ['*' :: (natToDigits id ++ "QT".toList ++ intToDigits v ++ ['\r'])]) =
      some ((v : Rat) / 10,
        DriverState.mk [(LssCommand.simple id ("QT".toList)).serialize] [] []) := by
  have hsep : (LssResponse.new
      (natToDigits id ++ "QT".toList ++ intToDigits v)).separate ("QT".toList) =
        some (id, v) := separate_response (by decide)
  have hrecv := receiveResp_single [(LssCommand.simple id ("QT".toList)).serialize]
    id ("QT".toList) v (by decide)
  simp only [read_temperature, DriverState.send, List.nil_append, hrecv, hsep]

theorem read_current_value (id : Nat) (v : Int) :
    read_current id (DriverState.mk [] []
        ['*' :: (natToDigits id ++ "QC".toList ++ intToDigits v ++ ['\r'])]) =
      some ((v : Rat) / 1000,
        DriverState.mk [(LssCommand.simple id ("QC".toList)).serialize] [] []) := by
  have hsep : (LssResponse.new
      (natToDigits id ++ "QC".toList ++ intToDigits v)).separate ("QC".toList) =
        some (id, v) := separate_response (by decide)
  have hrecv := receiveResp_single [(LssCommand.simple id ("QC".toList)).serialize]
    id ("QC".toList) v (by decide)
  simp only [read_current, DriverState.send, List.nil_append, hrecv, hsep]

theorem read_filter_position_count_value (id : Nat) (v : Int) :
    read_filter_position_count id (DriverState.mk [] []
        ['*' :: (natToDigits id ++ "QFPC".toList ++ intToDigits v ++ ['\r'])]) =
      some ((v % 256).toNat,
        DriverState.mk [(LssCommand.simple id ("QFPC".toList)).serialize] [] []) := by
  have hsep : (LssResponse.new
      (natToDigits id ++ "QFPC".toList ++ intToDigits v)).separate ("QFPC".toList) =
        some (id, v) := separate_response (by decide)
  have hrecv := receiveResp_single
    [(LssCommand.simple id ("QFPC".toList)).serialize]
    id ("QFPC".toList) v (by decide)
  simp only [read_filter_position_count, DriverState.send, List.nil_append,
    hrecv, hsep]

/-! ## The claims -/

/-- C1: Frame Codec buffer retention and ordering.  (i) Every successful
`receive()` consumed some prefix of the pending chunks, the consumed bytes
split as a terminator-free prefix, the terminator, and the retained buffer
— so the buffer holds exactly the bytes after the consumed terminator, in
order.  (ii) A single transport read `"*1H\r*2H\r"` makes two sequential
`receive()` calls return the frame for identifier 1 and then the frame for
identifier 2, with no transport read in between (the pending-chunk list is
exhausted by the first call and untouched by the second).  (iii) Iterated
reception returns exactly the frames of the concatenated stream, in
terminator order. -/
theorem buffer_retention_and_ordering :
    (∀ (buf : List Char) (chunks : List (List Char)) (f rest : List Char)
        (chunks' : List (List Char)),
        receive buf chunks = some (f, rest, chunks') →
        ∃ pre used, chunks = used ++ chunks' ∧
          buf ++ used.flatten = pre ++ '\r' :: rest ∧ '\r' ∉ pre ∧
          f = stripStar pre) ∧
    (receive [] ["*1H\r*2H\r".toList] =
        some ("1H".toList, "*2H\r".toList, []) ∧
      receive ("*2H\r".toList) [] = some ("2H".toList, [], [])) ∧
    (∀ (buf : List Char) (chunks : List (List Char)),
        receiveAll buf chunks = frames (buf ++ chunks.flatten)) :=
  ⟨fun _ _ _ _ _ h => receive_some_decomp h,
   ⟨by decide, by decide⟩,
   receiveAll_eq_frames⟩

/-- Witness for C1: the decomposition at the concrete call
`receive "*1H\rX" []`. -/
theorem buffer_retention_and_ordering_witness :
    ∃ pre used, ([] : List (List Char)) = used ++ ([] : List (List Char)) ∧
      "*1H\rX".toList ++ used.flatten = pre ++ '\r' :: "X".toList ∧
      '\r' ∉ pre ∧ "1H".toList = stripStar pre :=
  buffer_retention_and_ordering.1 "*1H\rX".toList [] "1H".toList "X".toList []
    (by decide)

/-- C2: Command serialization format.  `simple(id, action)` serializes to
`#` + decimal id + action + `\r`, and `with_param(id, action, value)` to
`#` + decimal id + action + decimal value + `\r`; the id's decimal form has
no leading zeros (its first digit is `0` only for id 0) and the value is
sign-prefixed exactly when negative.  The concrete frames pinned by the
crate's own tests are reproduced. -/
theorem command_serialization :
    (∀ (id : Nat) (action : List Char),
        (LssCommand.simple id action).serialize =
          '#' :: (natToDigits id ++ action ++ ['\r'])) ∧
    (∀ (id : Nat) (action : List Char) (v : Int),
        (LssCommand.with_param id action v).serialize =
          '#' :: (natToDigits id ++ action ++ intToDigits v ++ ['\r'])) ∧
    (∀ n : Nat, (natToDigits n).head? = some '0' → n = 0) ∧
    (∀ v : Int, v < 0 ↔ (intToDigits v).head? = some '-') ∧
    (LssCommand.simple 4 ("H".toList)).serialize = "#4H\r".toList ∧
    (LssCommand.simple 5 ("QV".toList)).serialize = "#5QV\r".toList ∧
    (LssCommand.with_param 2 ("LED".toList) 1).serialize = "#2LED1\r".toList ∧
    (LssCommand.with_param 3 ("D".toList) 1800).serialize =
      "#3D1800\r".toList :=
  ⟨fun id action => by simp [LssCommand.serialize, LssCommand.simple],
   fun id action v => by simp [LssCommand.serialize, LssCommand.with_param],
   fun _ => natToDigits_head_zero,
   intToDigits_head_dash,
   by decide, by decide, by decide, by decide⟩

/-- Witness for C2: the no-leading-zero clause applied at `n = 0`, and the
sign clause applied at `v = -3`. -/
theorem command_serialization_witness :
    ((natToDigits 0).head? = some '0' ∧ (0 : Nat) = 0) ∧
      ((-3 : Int) < 0 → (intToDigits (-3)).head? = some '-') :=
  ⟨⟨by decide, command_serialization.2.2.1 0 (by decide)⟩,
   fun h => (command_serialization.2.2.2.1 (-3)).mp h⟩

/-- C3: `separate(expected_token)` returns a value exactly when the response
text is a non-empty digit run (the echoed identifier), then the expected
token verbatim, then a valid signed decimal integer; otherwise it fails.
In particular a `QV` response checked against `QT` or `QVV`, and a `QVV`
response checked against `QV`, are all rejected, while the well-formed case
returns the identifier and value. -/
theorem separate_protocol_error_iff :
    (∀ (text : List Char) (e : Char) (es : List Char) (i : Nat) (v : Int),
        e.isDigit = false →
        ((LssResponse.new text).separate (e :: es) = some (i, v) ↔
          ∃ ds rest, text = ds ++ (e :: es) ++ rest ∧ ds ≠ [] ∧
            (∀ c ∈ ds, c.isDigit = true) ∧ digitsToNat ds = i ∧
            parseInt? rest = some v)) ∧
    (LssResponse.new ("5QV11200".toList)).separate ("QT".toList) = none ∧
    (LssResponse.new ("5QV11200".toList)).separate ("QVV".toList) = none ∧
    (LssResponse.new ("5QVV123".toList)).separate ("QV".toList) = none ∧
    (LssResponse.new ("QV11200".toList)).separate ("QV".toList) = none ∧
    (LssResponse.new ("5QV11200".toList)).separate ("QV".toList) =
      some (5, 11200) :=
  ⟨fun _ _ _ _ _ he => separate_eq_some_iff he,
   by decide, by decide, by decide, by decide, by decide⟩

/-- Witness for C3: the characterisation applied to the concrete response
`5QV11200` and token `QV`. -/
theorem separate_protocol_error_iff_witness :
    (LssResponse.new ("5QV11200".toList)).separate ('Q' :: 'V' :: []) =
        some (5, 11200) ↔
      ∃ ds rest, "5QV11200".toList = ds ++ ('Q' :: 'V' :: []) ++ rest ∧
        ds ≠ [] ∧ (∀ c ∈ ds, c.isDigit = true) ∧ digitsToNat ds = 5 ∧
        parseInt? rest = some 11200 :=
  separate_protocol_error_iff.1 ("5QV11200".toList) 'Q' ('V' :: []) 5 11200
    (by decide)

/-- C4: unit conversion in the query methods.  For every servo id and every
well-formed response frame with integer value `v`, `read_voltage` and
`read_current` return `v / 1000` and `read_position` and `read_temperature`
return `v / 10` (as exact rationals modelling the `f32` results); reading
voltage after the transport supplies `"*5QV11200\r"` returns 11.2. -/
theorem query_unit_conversion :
    (∀ (id : Nat) (v : Int),
        read_voltage id (DriverState.mk [] []
            ['*' :: (natToDigits id ++ "QV".toList ++ intToDigits v ++ ['\r'])]) =
          some ((v : Rat) / 1000,
            DriverState.mk [(LssCommand.simple id ("QV".toList)).serialize] [] [])) ∧
    (∀ (id : Nat) (v : Int),
        read_current id (DriverState.mk [] []
            ['*' :: (natToDigits id ++ "QC".toList ++ intToDigits v ++ ['\r'])]) =
          some ((v : Rat) / 1000,
            DriverState.mk [(LssCommand.simple id ("QC".toList)).serialize] [] [])) ∧
    (∀ (id : Nat) (v : Int),
        read_position id (DriverState.mk [] []
            ['*' :: (natToDigits id ++ "QDT".toList ++ intToDigits v ++ ['\r'])]) =
          some ((v : Rat) / 10,
            DriverState.mk [(LssCommand.simple id ("QDT".toList)).serialize] [] [])) ∧
    (∀ (id : Nat) (v : Int),
        read_temperature id (DriverState.mk [] []
            ['*' :: (natToDigits id ++ "QT".toList ++ intToDigits v ++ ['\r'])]) =
          some ((v : Rat) / 10,
            DriverState.mk [(LssCommand.simple id ("QT".toList)).serialize] [] [])) ∧
    (read_voltage 5 (DriverState.mk [] [] ["*5QV11200\r".toList])).map
        (fun x => x.1) = some (11.2 : Rat) := by
  refine ⟨read_voltage_value, read_current_value, read_position_value,
    read_temperature_value, ?_⟩
  have hchunk : ("*5QV11200\r".toList : List Char) =
      '*' :: (natToDigits 5 ++ "QV".toList ++ intToDigits 11200 ++ ['\r']) := by
    decide
  rw [hchunk, read_voltage_value 5 11200]
  simp only [Option.map, Option.some.injEq]
  norm_num

/-- C5: fragmentation invariance.  Splitting `"*5QV11200\r"` into two
transport reads at any byte boundary yields the same Response as a single
read; and in general the frames produced depend only on the concatenated
byte stream, not on the chunk boundaries. -/
theorem fragmentation_invariance :
    (∀ i < 11,
        (receive [] [("*5QV11200\r".toList).take i,
            ("*5QV11200\r".toList).drop i]).map (fun x => x.1) =
          (receive [] ["*5QV11200\r".toList]).map (fun x => x.1)) ∧
    (∀ (chunks chunks' : List (List Char)), chunks.flatten = chunks'.flatten →
        receiveAll [] chunks = receiveAll [] chunks') :=
  ⟨by decide,
   fun chunks chunks' h => by
    rw [receiveAll_eq_frames, receiveAll_eq_frames, h]⟩

/-- Witness for C5: the split of `"*5QV11200\r"` after byte 4, and the
chunking `["*1H\r", "*2H\r"]` against the unsplit stream. -/
theorem fragmentation_invariance_witness :
    ((receive [] [("*5QV11200\r".toList).take 4,
        ("*5QV11200\r".toList).drop 4]).map (fun x => x.1) =
      (receive [] ["*5QV11200\r".toList]).map (fun x => x.1)) ∧
    receiveAll [] ["*1H\r".toList, "*2H\r".toList] =
      receiveAll [] ["*1H\r*2H\r".toList] :=
  ⟨fragmentation_invariance.1 4 (by decide),
   fragmentation_invariance.2 ["*1H\r".toList, "*2H\r".toList]
     ["*1H\r*2H\r".toList] (by decide)⟩

/-- C6: `move_to_position(id, p)` sends exactly one command, whose wire form
is `#` + id + `D` + round(p * 10) + `\r`; in particular
`move_to_position(3, 180.0)` hands the transport exactly `"#3D1800\r"`. -/
theorem move_to_position_wire :
    (∀ (id : Nat) (p : Rat) (s : DriverState),
        move_to_position id p s =
          DriverState.mk (s.sent ++
              ['#' :: (natToDigits id ++ "D".toList ++
                intToDigits (rustRound (p * 10)) ++ ['\r'])])
            s.buffer s.chunks) ∧
    (move_to_position 3 180 (DriverState.mk [] [] [])).sent =
      ["#3D1800\r".toList] := by
  constructor
  · intro id p s
    simp [move_to_position, DriverState.send, LssCommand.serialize,
      LssCommand.with_param]
  · have hr : rustRound ((180 : Rat) * 10) = 1800 := by
      norm_num [rustRound]
    show (DriverState.send (DriverState.mk [] [] [])
      (LssCommand.with_param 3 ("D".toList)
        (rustRound ((180 : Rat) * 10)))).sent = ["#3D1800\r".toList]
    rw [hr]
    decide

/-- C7: `halt_hold(id)` sends exactly one command, the parameterless `H`
command for that id; in particular `halt_hold(4)` hands the transport
exactly `"#4H\r"`. -/
theorem halt_hold_wire :
    (∀ (id : Nat) (s : DriverState),
        halt_hold id s =
          DriverState.mk (s.sent ++
              ['#' :: (natToDigits id ++ "H".toList ++ ['\r'])])
            s.buffer s.chunks) ∧
    (halt_hold 4 (DriverState.mk [] [] [])).sent = ["#4H\r".toList] := by
  constructor
  · intro id s
    simp [halt_hold, DriverState.send, LssCommand.serialize, LssCommand.simple]
  · decide

/-- C8: `set_color(id, c)` sends the `LED` command with the color's code as
integer parameter (Off = 0, Red = 1, Green = 2, Blue = 3, Yellow = 4,
Cyan = 5, Magenta = 6, White = 7); in particular `set_color(2, Red)` sends
`"#2LED1\r"`. -/
theorem set_color_wire :
    (∀ (id : Nat) (c : LedColor) (s : DriverState),
        set_color id c s =
          DriverState.mk (s.sent ++
              ['#' :: (natToDigits id ++ "LED".toList ++
                intToDigits c.code ++ ['\r'])])
            s.buffer s.chunks) ∧
    (LedColor.code .Off = 0 ∧ LedColor.code .Red = 1 ∧
      LedColor.code .Green = 2 ∧ LedColor.code .Blue = 3 ∧
      LedColor.code .Yellow = 4 ∧ LedColor.code .Cyan = 5 ∧
      LedColor.code .Magenta = 6 ∧ LedColor.code .White = 7) ∧
    (set_color 2 .Red (DriverState.mk [] [] [])).sent =
      ["#2LED1\r".toList] := by
  refine ⟨?_, by decide, by decide⟩
  intro id c s
  simp [set_color, DriverState.send, LssCommand.serialize,
    LssCommand.with_param]

/-- C9: `read_filter_position_count` truncates the parsed value to an
unsigned byte: for every integer value `v` in a well-formed response —
including values outside 0–255 and negative values — the method succeeds
and returns `v` modulo 256; e.g. value 300 yields 44 and value −1 yields
255. -/
theorem read_filter_position_count_truncates :
    (∀ (id : Nat) (v : Int),
        read_filter_position_count id (DriverState.mk [] []
            ['*' :: (natToDigits id ++ "QFPC".toList ++
              intToDigits v ++ ['\r'])]) =
          some ((v % 256).toNat,
            DriverState.mk
              [(LssCommand.simple id ("QFPC".toList)).serialize] [] [])) ∧
    (read_filter_position_count 5
        (DriverState.mk [] [] ["*5QFPC300\r".toList])).map (fun x => x.1) =
      some 44 ∧
    (read_filter_position_count 5
        (DriverState.mk [] [] ["*5QFPC-1\r".toList])).map (fun x => x.1) =
      some 255 :=
  ⟨read_filter_position_count_value, by decide, by decide⟩

/-- C10: `set_motion_profile` encodes the boolean as an integer parameter:
enabling sends `EM` with parameter 1 and disabling sends `EM` with
parameter 0, so the wire bytes are `#(id)EM1\r` and `#(id)EM0\r`. -/
theorem set_motion_profile_wire :
    (∀ (id : Nat) (s : DriverState),
        set_motion_profile id true s =
          DriverState.mk (s.sent ++
              ['#' :: (natToDigits id ++ "EM".toList ++
                intToDigits 1 ++ ['\r'])])
            s.buffer s.chunks) ∧
    (∀ (id : Nat) (s : DriverState),
        set_motion_profile id false s =
          DriverState.mk (s.sent ++
              ['#' :: (natToDigits id ++ "EM".toList ++
                intToDigits 0 ++ ['\r'])])
            s.buffer s.chunks) ∧
    (set_motion_profile 7 true (DriverState.mk [] [] [])).sent =
      ["#7EM1\r".toList] ∧
    (set_motion_profile 7 false (DriverState.mk [] [] [])).sent =
      ["#7EM0\r".toList] := by
  refine ⟨?_, ?_, by decide, by decide⟩
  · intro id s
    simp [set_motion_profile, DriverState.send, LssCommand.serialize,
      LssCommand.with_param]
  · intro id s
    simp [set_motion_profile, DriverState.send, LssCommand.serialize,
      LssCommand.with_param]

end LssDriver
